import Mathlib

/-!
Shallow embedding of the b0shim CLI (`shimmingtoolbox/cli/b0shim.py`) and of
the external collaborators it calls, together with theorems about the
slice-group scheduler, the bounds adjuster, the coordinate transformer, the
fieldmap pre-expansion, the absolute-format output path and the two pipeline
entry points. Real numbers carried by the Python code are embedded as
rationals so that every definition is executable and every comparison exact.
-/

namespace B0Shim

/-- Slice-grouping method accepted by the slice scheduler. -/
inductive SliceMethod
  | sequential
  | interleaved
  | volume
  deriving DecidableEq

/-- Errors raised by the CLI code, one constructor per Python exception class
that the embedded code paths can raise. -/
inductive ShimError
  | invalidArgument (msg : String)
  | valueError (msg : String)
  | runtimeError (msg : String)
  | osError (msg : String)
  | notImplementedError (msg : String)
  deriving DecidableEq

/-- Modelled from the spec: `define_slices` is imported in `b0shim.py` from
`shimmingtoolbox.shim.sequencer` and its body is not among the sources at
hand. Following the spec wording: `sequential` returns consecutive chunks of
size `factor` in index order, the final partial chunk retained when
`totalSlices` is not a multiple of `factor`; `interleaved` returns, for each
phase `k < factor`, the group of indices congruent to `k` modulo `factor`
below `totalSlices`, in ascending order; `volume` returns a single group with
every slice index, ignoring `factor`. -/
def defineSlicesGroups (totalSlices factor : ℕ) : SliceMethod → List (List ℕ)
  | .sequential =>
      (List.range ((totalSlices + factor - 1) / factor)).map fun g =>
        List.range' (g * factor) (min factor (totalSlices - g * factor))
  | .interleaved =>
      (List.range factor).map fun k =>
        (List.range totalSlices).filter fun j => j % factor = k
  | .volume => [List.range totalSlices]

/-- Modelled from the spec: the `defineSlices` operation rejects
`totalSlices < 1` and `factor < 1` with an `InvalidArgument` failure and
otherwise returns the ordered groups of `defineSlicesGroups`. -/
def defineSlices (totalSlices factor : ℕ) (method : SliceMethod) :
    Except ShimError (List (List ℕ)) :=
  if totalSlices = 0 ∨ factor = 0 then
    .error (.invalidArgument "defineSlices requires totalSlices and factor to be at least 1")
  else
    .ok (defineSlicesGroups totalSlices factor method)

lemma count_range'_eq (j s len : ℕ) :
    (List.range' s len).count j = if s ≤ j ∧ j < s + len then 1 else 0 := by
  by_cases h : s ≤ j ∧ j < s + len
  · rw [if_pos h]
    refine List.count_eq_one_of_mem (List.nodup_range' s len) ?_
    rw [List.mem_range']
    exact ⟨j - s, by omega, by omega⟩
  · rw [if_neg h, List.count_eq_zero]
    intro hmem
    rw [List.mem_range'] at hmem
    obtain ⟨i, hi, rfl⟩ := hmem
    omega

lemma count_range_eq (j n : ℕ) :
    (List.range n).count j = if j < n then 1 else 0 := by
  rw [List.range_eq_range', count_range'_eq]
  by_cases h : j < n
  · rw [if_pos (by omega), if_pos h]
  · rw [if_neg (by omega), if_neg h]

lemma sum_map_single (m t c : ℕ) :
    ((List.range m).map fun g => if g = t then c else 0).sum
      = if t < m then c else 0 := by
  induction m with
  | zero => simp
  | succ m ih =>
      rw [List.range_succ, List.map_append, List.sum_append, ih]
      by_cases h : t < m
      · have h1 : m ≠ t := by omega
        have h2 : t < m + 1 := by omega
        simp [h, h1, h2]
      · by_cases h2 : m = t
        · have h3 : t < m + 1 := by omega
          simp [h, h2, h3]
        · have h3 : ¬ t < m + 1 := by omega
          simp [h, h2, h3]

lemma ceil_div_eq (n f : ℕ) (hn : 1 ≤ n) (hf : 1 ≤ f) :
    (n + f - 1) / f = (n - 1) / f + 1 := by
  have h : n + f - 1 = (n - 1) + f := by omega
  rw [h, Nat.add_div_right _ (by omega)]

lemma seq_chunk_mem_iff (f j g n : ℕ) (hf : 0 < f) (hj : j < n) :
    (g * f ≤ j ∧ j < g * f + min f (n - g * f)) ↔ g = j / f := by
  constructor
  · rintro ⟨h1, h2⟩
    have h3 : j < g * f + f :=
      lt_of_lt_of_le h2 (Nat.add_le_add_left (Nat.min_le_left _ _) _)
    have h4 : j < (g + 1) * f := by rw [Nat.succ_mul]; exact h3
    exact (Nat.div_eq_of_lt_le h1 h4).symm
  · rintro rfl
    refine ⟨Nat.div_mul_le_self j f, ?_⟩
    have h1 : j < j / f * f + f := by
      conv_lhs => rw [← Nat.div_add_mod j f]
      rw [Nat.mul_comm f (j / f)]
      exact Nat.add_lt_add_left (Nat.mod_lt j hf) _
    have hle := Nat.div_mul_le_self j f
    have h2 : j < j / f * f + (n - j / f * f) := by
      rw [Nat.add_sub_cancel' (le_trans hle (Nat.le_of_lt hj))]
      exact hj
    rw [← min_add_add_left]
    exact lt_min h1 h2

lemma seq_chunk_lt (f j g n : ℕ) (hn : 0 < n) (hf : 0 < f)
    (hg : g < (n + f - 1) / f)
    (h : g * f ≤ j ∧ j < g * f + min f (n - g * f)) : j < n := by
  have hm := ceil_div_eq n f hn hf
  rw [hm] at hg
  have hgle : g ≤ (n - 1) / f := Nat.lt_succ_iff.mp hg
  have h5 : g * f ≤ n - 1 :=
    le_trans (Nat.mul_le_mul_right f hgle) (Nat.div_mul_le_self _ _)
  have h6 : g * f + min f (n - g * f) ≤ g * f + (n - g * f) :=
    Nat.add_le_add_left (Nat.min_le_right _ _) _
  have h7 : g * f + (n - g * f) = n := Nat.add_sub_cancel' (by omega)
  omega

lemma seq_count (n f j : ℕ) (hn : 1 ≤ n) (hf : 1 ≤ f) :
    ((defineSlicesGroups n f .sequential).flatten).count j
      = if j < n then 1 else 0 := by
  unfold defineSlicesGroups
  rw [List.count_flatten, List.map_map]
  by_cases hj : j < n
  · have key : ∀ g ∈ List.range ((n + f - 1) / f),
        (List.count j ∘ fun g => List.range' (g * f) (min f (n - g * f))) g
          = if g = j / f then 1 else 0 := by
      intro g _
      simp only [Function.comp_apply]
      rw [count_range'_eq]
      by_cases hgj : g = j / f
      · rw [if_pos ((seq_chunk_mem_iff f j g n (by omega) hj).mpr hgj), if_pos hgj]
      · rw [if_neg (fun hc => hgj ((seq_chunk_mem_iff f j g n (by omega) hj).mp hc)),
          if_neg hgj]
    rw [List.map_congr_left key, sum_map_single, if_pos hj]
    rw [if_pos ?_]
    have hm := ceil_div_eq n f hn hf
    have hd : j / f ≤ (n - 1) / f := Nat.div_le_div_right (by omega)
    omega
  · have key : ∀ g ∈ List.range ((n + f - 1) / f),
        (List.count j ∘ fun g => List.range' (g * f) (min f (n - g * f))) g = 0 := by
      intro g hg
      rw [List.mem_range] at hg
      simp only [Function.comp_apply]
      rw [count_range'_eq, if_neg]
      intro hc
      exact hj (seq_chunk_lt f j g n (by omega) (by omega) hg hc)
    rw [List.map_congr_left key, if_neg hj]
    simp

lemma inter_count (n f j : ℕ) (hf : 1 ≤ f) :
    ((defineSlicesGroups n f .interleaved).flatten).count j
      = if j < n then 1 else 0 := by
  unfold defineSlicesGroups
  rw [List.count_flatten, List.map_map]
  have key : ∀ k ∈ List.range f,
      (List.count j ∘ fun k => (List.range n).filter fun x => x % f = k) k
        = if k = j % f then (if j < n then 1 else 0) else 0 := by
    intro k _
    simp only [Function.comp_apply]
    by_cases hkk : k = j % f
    · subst hkk
      rw [if_pos rfl, List.count_filter (by simp), count_range_eq]
    · rw [if_neg hkk, List.count_eq_zero]
      intro hmem
      rw [List.mem_filter] at hmem
      have h2 := hmem.2
      simp only [decide_eq_true_eq] at h2
      exact hkk h2.symm
  rw [List.map_congr_left key, sum_map_single,
    if_pos (Nat.mod_lt j (show f > 0 by omega))]

lemma volume_count (n f j : ℕ) :
    ((defineSlicesGroups n f .volume).flatten).count j
      = if j < n then 1 else 0 := by
  unfold defineSlicesGroups
  simp only [List.flatten, List.append_nil]
  rw [count_range_eq]

/-- C1: for every `totalSlices ≥ 1`, every `factor ≥ 1` and each of the
methods `sequential`, `interleaved` and `volume`, `defineSlices` succeeds and
the ordered groups it returns partition `{0, …, totalSlices-1}`: the
concatenation of the groups holds every index below `totalSlices` exactly
once and no other index, so the union of the groups is the full index range
and no index belongs to two groups. -/
theorem defineSlices_partition (n f : ℕ) (method : SliceMethod)
    (hn : 1 ≤ n) (hf : 1 ≤ f) :
    defineSlices n f method = .ok (defineSlicesGroups n f method) ∧
    (∀ j, ((defineSlicesGroups n f method).flatten).count j
        = if j < n then 1 else 0) ∧
    (∀ j, j < n ↔ ∃ g ∈ defineSlicesGroups n f method, j ∈ g) := by
  have hcount : ∀ j, ((defineSlicesGroups n f method).flatten).count j
      = if j < n then 1 else 0 := by
    intro j
    cases method with
    | sequential => exact seq_count n f j hn hf
    | interleaved => exact inter_count n f j hf
    | volume => exact volume_count n f j
  refine ⟨by rw [defineSlices, if_neg (by omega)], hcount, fun j => ?_⟩
  rw [← List.mem_flatten, ← List.count_pos_iff, hcount j]
  by_cases hj : j < n
  · rw [if_pos hj]; omega
  · rw [if_neg hj]; omega

/-- C1 witness: the partition property instantiated at five slices grouped in
pairs with the interleaved method. -/
theorem defineSlices_partition_witness :
    defineSlices 5 2 .interleaved = .ok (defineSlicesGroups 5 2 .interleaved) ∧
    (∀ j, ((defineSlicesGroups 5 2 .interleaved).flatten).count j
        = if j < 5 then 1 else 0) ∧
    (∀ j, j < 5 ↔ ∃ g ∈ defineSlicesGroups 5 2 .interleaved, j ∈ g) :=
  defineSlices_partition 5 2 .interleaved (by decide) (by decide)

/-- C8: `defineSlices` returns exactly the groupings listed in the spec on the
four concrete inputs, and in general the sequential method returns as group
`g` the consecutive chunk starting at `g * factor` (of size `factor`, cut off
at `totalSlices`), while the interleaved method returns as group `k` exactly
the indices below `totalSlices` congruent to `k` modulo `factor`. -/
theorem defineSlices_examples :
    defineSlices 6 3 .sequential = .ok [[0, 1, 2], [3, 4, 5]] ∧
    defineSlices 6 2 .interleaved = .ok [[0, 2, 4], [1, 3, 5]] ∧
    defineSlices 5 3 .sequential = .ok [[0, 1, 2], [3, 4]] ∧
    defineSlices 5 1 .volume = .ok [[0, 1, 2, 3, 4]] ∧
    (∀ n f g, g < (n + f - 1) / f →
      (defineSlicesGroups n f .sequential).getD g []
        = List.range' (g * f) (min f (n - g * f))) ∧
    (∀ n f k, k < f → ∀ j,
      (j ∈ (defineSlicesGroups n f .interleaved).getD k [] ↔ j < n ∧ j % f = k)) := by
  refine ⟨by rfl, by rfl, by rfl, by rfl, ?_, ?_⟩
  · intro n f g hg
    unfold defineSlicesGroups
    rw [List.getD_eq_getElem _ _ (by simpa using hg)]
    rw [List.getElem_map, List.getElem_range]
  · intro n f k hk j
    unfold defineSlicesGroups
    rw [List.getD_eq_getElem _ _ (by simpa using hk)]
    rw [List.getElem_map, List.getElem_range, List.mem_filter, List.mem_range]
    simp only [decide_eq_true_eq]

/-- C8 witness: the chunk and phase characterizations instantiated at seven
slices with factor three. -/
theorem defineSlices_examples_witness :
    (defineSlicesGroups 7 3 .sequential).getD 2 []
        = List.range' (2 * 3) (min 3 (7 - 2 * 3)) ∧
    (5 ∈ (defineSlicesGroups 7 3 .interleaved).getD 2 [] ↔ 5 < 7 ∧ 5 % 3 = 2) :=
  ⟨defineSlices_examples.2.2.2.2.1 7 3 2 (by decide),
   defineSlices_examples.2.2.2.2.2 7 3 2 (by decide) 5⟩

/-- Modelled from the spec: `new_bounds_from_currents` is imported in
`b0shim.py` from `shimmingtoolbox.shim.sequencer` and its body is not among
the sources at hand. Following the spec wording, the absolute hardware bound
pair of each channel is shifted by the initial (already applied) coefficient
of that channel, giving the feasible range for a delta shim value. -/
def adjustBounds (initialCoefs : List ℚ) (absoluteBounds : List (ℚ × ℚ)) :
    List (ℚ × ℚ) :=
  List.zipWith (fun c b => (b.1 - c, b.2 - c)) initialCoefs absoluteBounds

/-- C2: per channel, the delta bounds are the absolute bounds shifted by the
initial coefficient, so adding the initial coefficient back to either delta
bound recovers the corresponding absolute bound exactly (rational arithmetic
in the embedding, hence within any floating tolerance). -/
theorem adjustBounds_delta (initial : List ℚ) (bounds : List (ℚ × ℚ)) (i : ℕ)
    (hi : i < initial.length) (hb : i < bounds.length)
    (hin : (bounds.getD i (0, 0)).1 ≤ initial.getD i 0 ∧
      initial.getD i 0 ≤ (bounds.getD i (0, 0)).2) :
    (adjustBounds initial bounds).getD i (0, 0)
        = ((bounds.getD i (0, 0)).1 - initial.getD i 0,
           (bounds.getD i (0, 0)).2 - initial.getD i 0) ∧
    initial.getD i 0 + ((adjustBounds initial bounds).getD i (0, 0)).1
        = (bounds.getD i (0, 0)).1 ∧
    initial.getD i 0 + ((adjustBounds initial bounds).getD i (0, 0)).2
        = (bounds.getD i (0, 0)).2 := by
  have hlen : i < (adjustBounds initial bounds).length := by
    rw [adjustBounds, List.length_zipWith]
    omega
  rw [List.getD_eq_getElem _ _ hlen, List.getD_eq_getElem _ _ hi,
    List.getD_eq_getElem _ _ hb]
  simp only [adjustBounds, List.getElem_zipWith]
  refine ⟨trivial, by ring, by ring⟩

/-- C2 witness: the delta-bound relation instantiated on a two-channel coil
with initial coefficients inside the absolute bounds. -/
theorem adjustBounds_delta_witness :
    (adjustBounds [2, -1] [(-3, 5), (-4, 4)]).getD 1 (0, 0)
        = (([((-3 : ℚ), (5 : ℚ)), (-4, 4)].getD 1 (0, 0)).1 - [(2 : ℚ), -1].getD 1 0,
           (([((-3 : ℚ), (5 : ℚ)), (-4, 4)].getD 1 (0, 0)).2 - [(2 : ℚ), -1].getD 1 0)) ∧
    [(2 : ℚ), -1].getD 1 0 + ((adjustBounds [2, -1] [(-3, 5), (-4, 4)]).getD 1 (0, 0)).1
        = ([((-3 : ℚ), (5 : ℚ)), (-4, 4)].getD 1 (0, 0)).1 ∧
    [(2 : ℚ), -1].getD 1 0 + ((adjustBounds [2, -1] [(-3, 5), (-4, 4)]).getD 1 (0, 0)).2
        = ([((-3 : ℚ), (5 : ℚ)), (-4, 4)].getD 1 (0, 0)).2 :=
  adjustBounds_delta [2, -1] [(-3, 5), (-4, 4)] 1 (by decide) (by decide)
    (by constructor <;> norm_num)

/-- Error raised by the scanner-coil feasibility check `_initial_in_bounds`
nested in `_load_coils`: either the coefficient list and the bounds list
differ in length, or some initial coefficient falls outside the bound pair of
its channel; the second constructor carries the bound pair and the initial
value interpolated into the Python `RuntimeError` message. -/
inductive BoundsCheckError
  | lengthMismatch
  | outOfBounds (bound : ℚ × ℚ) (initial : ℚ)
  deriving DecidableEq

/-- Loop body of `_initial_in_bounds`: walk the bound pairs and the
coefficients in lockstep and raise on the first coefficient outside its
bounds. The Python loop runs over the indices of `bounds` and reads
`coefs[i_bound]`; it is only reached once both lists have equal length. -/
def checkCoefsInBounds : List (ℚ × ℚ) → List ℚ → Except BoundsCheckError Unit
  | [], _ => .ok ()
  | _ :: _, [] => .ok ()
  | b :: bs, c :: cs =>
      if b.1 ≤ c ∧ c ≤ b.2 then checkCoefsInBounds bs cs
      else .error (.outOfBounds b c)

/-- The check `_initial_in_bounds(coefs, bounds)` from `_load_coils`
(`b0shim.py`): raise when the lengths differ, then raise on the first
coefficient outside its bound pair, otherwise succeed. -/
def initial_in_bounds (coefs : List ℚ) (bounds : List (ℚ × ℚ)) :
    Except BoundsCheckError Unit :=
  if coefs.length ≠ bounds.length then .error .lengthMismatch
  else checkCoefsInBounds bounds coefs

lemma checkCoefsInBounds_ok_iff (bounds : List (ℚ × ℚ)) (coefs : List ℚ)
    (hl : coefs.length = bounds.length) :
    checkCoefsInBounds bounds coefs = .ok () ↔
      ∀ i (hb : i < bounds.length) (hc : i < coefs.length),
        (bounds.get ⟨i, hb⟩).1 ≤ coefs.get ⟨i, hc⟩ ∧
          coefs.get ⟨i, hc⟩ ≤ (bounds.get ⟨i, hb⟩).2 := by
  induction bounds generalizing coefs with
  | nil =>
      simp only [checkCoefsInBounds]
      constructor
      · intro _ i hb _
        exact absurd hb (by simp)
      · intro _
        trivial
  | cons b bs ih =>
      cases coefs with
      | nil => simp at hl
      | cons c cs =>
          simp only [checkCoefsInBounds]
          by_cases hhead : b.1 ≤ c ∧ c ≤ b.2
          · rw [if_pos hhead, ih cs (by simpa using hl)]
            constructor
            · intro h i hb hc
              cases i with
              | zero => exact hhead
              | succ i => exact h i (by simpa using hb) (by simpa using hc)
            · intro h i hb hc
              exact h (i + 1) (by simpa using hb) (by simpa using hc)
          · rw [if_neg hhead]
            constructor
            · intro h
              cases h
            · intro h
              exact absurd (h 0 (by simp) (by simp)) hhead

lemma checkCoefsInBounds_error (bounds : List (ℚ × ℚ)) (coefs : List ℚ)
    (b : ℚ × ℚ) (c : ℚ)
    (h : checkCoefsInBounds bounds coefs = .error (.outOfBounds b c)) :
    ∃ i, ∃ hb : i < bounds.length, ∃ hc : i < coefs.length,
      b = bounds.get ⟨i, hb⟩ ∧ c = coefs.get ⟨i, hc⟩ ∧
        ¬(b.1 ≤ c ∧ c ≤ b.2) := by
  induction bounds generalizing coefs with
  | nil => cases h
  | cons b0 bs ih =>
      cases coefs with
      | nil => cases h
      | cons c0 cs =>
          simp only [checkCoefsInBounds] at h
          by_cases hhead : b0.1 ≤ c0 ∧ c0 ≤ b0.2
          · rw [if_pos hhead] at h
            obtain ⟨i, hb, hc, h1, h2, h3⟩ := ih cs h
            exact ⟨i + 1, by simpa using hb, by simpa using hc, h1, h2, h3⟩
          · rw [if_neg hhead] at h
            obtain ⟨rfl, rfl⟩ : b0 = b ∧ c0 = c := by
              injection h with h
              injection h with h1 h2
              exact ⟨h1, h2⟩
            exact ⟨0, by simp, by simp, rfl, rfl, hhead⟩

/-- C3: the feasibility check on the initial scanner coefficients succeeds
exactly when the two lists have equal length and every coefficient lies
within the bound pair of its channel; it reports a length mismatch whenever
the lengths differ; and whenever it reports an out-of-bounds failure, the
reported bound pair and value are those of an offending channel. -/
theorem initial_in_bounds_spec (coefs : List ℚ) (bounds : List (ℚ × ℚ)) :
    (initial_in_bounds coefs bounds = .ok () ↔
      (coefs.length = bounds.length ∧
        ∀ i (hb : i < bounds.length) (hc : i < coefs.length),
          (bounds.get ⟨i, hb⟩).1 ≤ coefs.get ⟨i, hc⟩ ∧
            coefs.get ⟨i, hc⟩ ≤ (bounds.get ⟨i, hb⟩).2)) ∧
    (coefs.length ≠ bounds.length →
      initial_in_bounds coefs bounds = .error .lengthMismatch) ∧
    (∀ b c, initial_in_bounds coefs bounds = .error (.outOfBounds b c) →
      ∃ i, ∃ hb : i < bounds.length, ∃ hc : i < coefs.length,
        b = bounds.get ⟨i, hb⟩ ∧ c = coefs.get ⟨i, hc⟩ ∧
          ¬(b.1 ≤ c ∧ c ≤ b.2)) := by
  refine ⟨?_, ?_, ?_⟩
  · by_cases hl : coefs.length = bounds.length
    · rw [initial_in_bounds, if_neg (by omega)]
      rw [checkCoefsInBounds_ok_iff bounds coefs hl]
      exact ⟨fun h => ⟨hl, h⟩, fun h => h.2⟩
    · rw [initial_in_bounds, if_pos hl]
      constructor
      · intro h
        cases h
      · intro h
        exact absurd h.1 hl
  · intro hl
    rw [initial_in_bounds, if_pos hl]
  · intro b c h
    rw [initial_in_bounds] at h
    by_cases hl : coefs.length = bounds.length
    · rw [if_neg (by omega)] at h
      exact checkCoefsInBounds_error bounds coefs b c h
    · rw [if_pos hl] at h
      cases h

/-- C3 witness: a concrete run where the second coefficient violates its
bounds, together with the success case and the length-mismatch case. -/
theorem initial_in_bounds_spec_witness :
    initial_in_bounds [1, 7] [(0, 2), (0, 2)] = .error (.outOfBounds (0, 2) 7) ∧
    initial_in_bounds [1, 2] [(0, 2), (0, 2)] = .ok () ∧
    initial_in_bounds [1] [(0, 2), (0, 2)] = .error .lengthMismatch := by
  have h1 := (initial_in_bounds_spec [1, 2] [(0, 2), (0, 2)]).1.mpr
    ⟨by decide, by decide⟩
  have h2 := (initial_in_bounds_spec [1] [(0, 2), (0, 2)]).2.1 (by decide)
  refine ⟨by rfl, h1, h2⟩

/-- Entry of a coefficient table at slice group `g`, channel `i` (rows are
slice groups, columns are channels, as in `coefs[i_shim, i_channel]`). -/
def entry (t : List (List ℚ)) (g i : ℕ) : ℚ := (t.getD g []).getD i 0

/-- Every row of the table has exactly `n` channels, as holds for the slice
`coefs[:, start_channel:end_channel]` of a coil with `n` channels. -/
def rowsLen (t : List (List ℚ)) (n : ℕ) : Prop := ∀ row ∈ t, row.length = n

/-- Column negation `coefs_coil[:, j] = -coefs_coil[:, j]` from the
absolute-format branch of `static_cli` and `realtime_cli`. -/
def negateColumn (t : List (List ℚ)) (j : ℕ) : List (List ℚ) :=
  t.map fun row => row.mapIdx fun i c => if i = j then -c else c

/-- Column shift `coefs_coil[:, j] = coefs_coil[:, j] + v`, one step of the
`abs_coef = delta + initial` loop. -/
def addToColumn (t : List (List ℚ)) (j : ℕ) (v : ℚ) : List (List ℚ) :=
  t.map fun row => row.mapIdx fun i c => if i = j then c + v else c

/-- The loop `for i_channel in range(n_channels): coefs_coil[:, i_channel] =
coefs_coil[:, i_channel] + initial_coefs[i_channel]`. -/
def addInitialCoefs (t : List (List ℚ)) (initialCoefs : List ℚ)
    (nChannels : ℕ) : List (List ℚ) :=
  (List.range nChannels).foldl
    (fun acc i => addToColumn acc i (initialCoefs.getD i 0)) t

/-- Absolute-format processing of a scanner-coil coefficient table from
`static_cli` (also `realtime_cli` for the static table): for the Siemens
manufacturer, first negate channel 1 (x) and channel 3 (z) to go from RAS to
LAI (shim coordinate system), then add the initial coefficient of every
channel; any other manufacturer raises `NotImplementedError`. The message
reproduces the Python string concatenation, including its missing space. -/
def absoluteScannerCoefs (manufacturer : String) (t : List (List ℚ))
    (initialCoefs : List ℚ) (nChannels : ℕ) :
    Except ShimError (List (List ℚ)) :=
  if manufacturer = "Siemens" then
    .ok (addInitialCoefs (negateColumn (negateColumn t 1) 3) initialCoefs nChannels)
  else
    .error (.notImplementedError
      ("Manufacturer: " ++ manufacturer ++ " not yet implemented for" ++ "absolute format"))

lemma negateColumn_length (t : List (List ℚ)) (j : ℕ) :
    (negateColumn t j).length = t.length := by
  simp [negateColumn]

lemma negateColumn_rowsLen (t : List (List ℚ)) (j n : ℕ) (h : rowsLen t n) :
    rowsLen (negateColumn t j) n := by
  intro row hrow
  rw [negateColumn, List.mem_map] at hrow
  obtain ⟨r, hr, rfl⟩ := hrow
  rw [List.length_mapIdx]
  exact h r hr

lemma addToColumn_length (t : List (List ℚ)) (j : ℕ) (v : ℚ) :
    (addToColumn t j v).length = t.length := by
  simp [addToColumn]

lemma addToColumn_rowsLen (t : List (List ℚ)) (j n : ℕ) (v : ℚ)
    (h : rowsLen t n) : rowsLen (addToColumn t j v) n := by
  intro row hrow
  rw [addToColumn, List.mem_map] at hrow
  obtain ⟨r, hr, rfl⟩ := hrow
  rw [List.length_mapIdx]
  exact h r hr

lemma entry_eq_getElem (t : List (List ℚ)) (g i n : ℕ) (hg : g < t.length)
    (hn : rowsLen t n) (hi : i < n) :
    ∃ hrow : i < (t.get ⟨g, hg⟩).length,
      entry t g i = (t.get ⟨g, hg⟩).get ⟨i, hrow⟩ := by
  have hrow : i < (t.get ⟨g, hg⟩).length := by
    rw [hn _ (List.get_mem t g hg)]
    exact hi
  refine ⟨hrow, ?_⟩
  rw [entry, List.getD_eq_getElem _ _ hg]
  rw [List.getD_eq_getElem _ _ (by simpa using hrow)]
  simp

lemma negateColumn_entry (t : List (List ℚ)) (j n g i : ℕ)
    (hg : g < t.length) (hn : rowsLen t n) (hi : i < n) :
    entry (negateColumn t j) g i
      = if i = j then -(entry t g i) else entry t g i := by
  obtain ⟨hrow, he⟩ := entry_eq_getElem t g i n hg hn hi
  have hg2 : g < (negateColumn t j).length := by
    rw [negateColumn_length]; exact hg
  obtain ⟨hrow2, he2⟩ := entry_eq_getElem (negateColumn t j) g i n hg2
    (negateColumn_rowsLen t j n hn) hi
  rw [he, he2]
  simp only [negateColumn, List.get_eq_getElem, List.getElem_map,
    List.getElem_mapIdx]

lemma addToColumn_entry (t : List (List ℚ)) (j n g i : ℕ) (v : ℚ)
    (hg : g < t.length) (hn : rowsLen t n) (hi : i < n) :
    entry (addToColumn t j v) g i
      = if i = j then entry t g i + v else entry t g i := by
  obtain ⟨hrow, he⟩ := entry_eq_getElem t g i n hg hn hi
  have hg2 : g < (addToColumn t j v).length := by
    rw [addToColumn_length]; exact hg
  obtain ⟨hrow2, he2⟩ := entry_eq_getElem (addToColumn t j v) g i n hg2
    (addToColumn_rowsLen t j n v hn) hi
  rw [he, he2]
  simp only [addToColumn, List.get_eq_getElem, List.getElem_map,
    List.getElem_mapIdx]

lemma addInitialCoefs_succ (t : List (List ℚ)) (init : List ℚ) (m : ℕ) :
    addInitialCoefs t init (m + 1)
      = addToColumn (addInitialCoefs t init m) m (init.getD m 0) := by
  unfold addInitialCoefs
  rw [List.range_succ, List.foldl_append, List.foldl_cons, List.foldl_nil]

lemma addInitialCoefs_length (t : List (List ℚ)) (init : List ℚ) (m : ℕ) :
    (addInitialCoefs t init m).length = t.length := by
  induction m with
  | zero => rfl
  | succ m ih => rw [addInitialCoefs_succ, addToColumn_length, ih]

lemma addInitialCoefs_rowsLen (t : List (List ℚ)) (init : List ℚ) (m n : ℕ)
    (h : rowsLen t n) : rowsLen (addInitialCoefs t init m) n := by
  induction m with
  | zero => exact h
  | succ m ih => rw [addInitialCoefs_succ]; exact addToColumn_rowsLen _ _ _ _ ih

lemma addInitialCoefs_entry (t : List (List ℚ)) (init : List ℚ) (m n g i : ℕ)
    (hg : g < t.length) (hn : rowsLen t n) (hi : i < n) :
    entry (addInitialCoefs t init m) g i
      = entry t g i + (if i < m then init.getD i 0 else 0) := by
  induction m with
  | zero =>
      rw [if_neg (by omega)]
      simp [addInitialCoefs]
  | succ m ih =>
      rw [addInitialCoefs_succ]
      rw [addToColumn_entry _ _ n _ _ _
        (by rw [addInitialCoefs_length]; exact hg)
        (addInitialCoefs_rowsLen t init m n hn) hi, ih]
      by_cases him : i = m
      · subst him
        rw [if_pos rfl, if_neg (by omega), if_pos (by omega)]
        ring
      · rw [if_neg him]
        by_cases hlt : i < m
        · rw [if_pos hlt, if_pos (by omega)]
        · rw [if_neg hlt, if_neg (by omega)]

/-- C4: with the absolute output value format and a scanner coil, a Siemens
anatomical image makes every emitted static coefficient equal to the
optimizer delta plus the initial coefficient of the channel, after the x
(channel 1) and z (channel 3) first-order components have been negated (RAS
to LAI); any other manufacturer raises `NotImplementedError` instead of
producing output. -/
theorem absoluteScannerCoefs_spec (mfr : String) (t : List (List ℚ))
    (init : List ℚ) (n : ℕ) (hn : rowsLen t n) :
    (mfr ≠ "Siemens" → ∃ msg,
      absoluteScannerCoefs mfr t init n = .error (.notImplementedError msg)) ∧
    (∀ out, absoluteScannerCoefs "Siemens" t init n = .ok out →
      out.length = t.length ∧
      ∀ g i, g < t.length → i < n →
        entry out g i
          = (if i = 1 ∨ i = 3 then -(entry t g i) else entry t g i)
              + init.getD i 0) := by
  constructor
  · intro hmfr
    exact ⟨"Manufacturer: " ++ mfr ++ " not yet implemented for" ++ "absolute format",
      by rw [absoluteScannerCoefs, if_neg hmfr]⟩
  · intro out hout
    rw [absoluteScannerCoefs, if_pos rfl] at hout
    injection hout with hout
    subst hout
    constructor
    · rw [addInitialCoefs_length, negateColumn_length, negateColumn_length]
    · intro g i hg hi
      have h1 : rowsLen (negateColumn t 1) n := negateColumn_rowsLen t 1 n hn
      have h13 : rowsLen (negateColumn (negateColumn t 1) 3) n :=
        negateColumn_rowsLen _ 3 n h1
      have hg1 : g < (negateColumn t 1).length := by
        rw [negateColumn_length]; exact hg
      have hg13 : g < (negateColumn (negateColumn t 1) 3).length := by
        rw [negateColumn_length]; exact hg1
      rw [addInitialCoefs_entry _ init n n g i hg13 h13 hi,
        negateColumn_entry _ 3 n g i hg1 h1 hi,
        negateColumn_entry t 1 n g i hg hn hi, if_pos hi]
      rcases Nat.lt_or_ge i 2 with hi2 | hi2
      · interval_cases i
        · norm_num
        · norm_num
      · rcases Nat.lt_or_ge i 4 with hi4 | hi4
        · interval_cases i
          · norm_num
          · norm_num
        · have hne1 : i ≠ 1 := by omega
          have hne3 : i ≠ 3 := by omega
          rw [if_neg hne1, if_neg hne3, if_neg (by omega)]

/-- C4 witness: the Siemens absolute output on a one-group table with four
channels, and the failure on another manufacturer. -/
theorem absoluteScannerCoefs_spec_witness :
    (∃ msg, absoluteScannerCoefs "GE" [[1, 2, 3, 4]] [10, 20, 30, 40] 4
        = .error (.notImplementedError msg)) ∧
    (∀ out, absoluteScannerCoefs "Siemens" [[1, 2, 3, 4]] [10, 20, 30, 40] 4
        = .ok out →
      out.length = [[(1 : ℚ), 2, 3, 4]].length ∧
      ∀ g i, g < [[(1 : ℚ), 2, 3, 4]].length → i < 4 →
        entry out g i
          = (if i = 1 ∨ i = 3 then -(entry [[1, 2, 3, 4]] g i)
              else entry [[1, 2, 3, 4]] g i) + [(10 : ℚ), 20, 30, 40].getD i 0) :=
  ⟨(absoluteScannerCoefs_spec "GE" [[1, 2, 3, 4]] [10, 20, 30, 40] 4
      (by intro row hrow; simp at hrow; rw [hrow]; rfl)).1 (by decide),
   (absoluteScannerCoefs_spec "Siemens" [[1, 2, 3, 4]] [10, 20, 30, 40] 4
      (by intro row hrow; simp at hrow; rw [hrow]; rfl)).2⟩

/-- The count `n_slices_to_expand = int(math.ceil((dilation_kernel_size - 1)
/ 2))` from `_load_fmap`; in natural-number arithmetic the ceiling of
`(k - 1) / 2` is `((k - 1) + 1) / 2`. -/
def nSlicesToExpand (dilationKernelSize : ℕ) : ℕ :=
  ((dilationKernelSize - 1) + 1) / 2

/-- Modelled from the spec: `extend_slice` is imported in `b0shim.py` from
`shimmingtoolbox.shim.sequencer` and its body is not among the sources at
hand. Following the spec wording, it replicates the single slice of the
given axis, growing that axis by `nSlices` voxels on each side; at the shape
level the length of the axis increases by `2 * nSlices`. -/
def extend_slice_shape (shape : List ℕ) (nSlices : ℕ) (axis : ℕ) : List ℕ :=
  shape.mapIdx fun i v => if i = axis then v + 2 * nSlices else v

/-- Shape-level embedding of `_load_fmap` (`b0shim.py`): reject a fieldmap
whose number of dimensions differs from `n_dims`; when one of the first
three (spatial) axes has length 1, apply `extend_slice` with
`nSlicesToExpand` slices to every such axis; otherwise return the shape
unchanged. -/
def load_fmap_shape (shape : List ℕ) (nDims : ℕ) (dilationKernelSize : ℕ) :
    Except ShimError (List ℕ) :=
  if shape.length ≠ nDims then
    .error (.valueError ("Fieldmap must be " ++ toString nDims))
  else if (shape.take 3).contains 1 then
    .ok (((List.range 3).filter fun i => shape.getD i 0 = 1).foldl
      (fun s a => extend_slice_shape s (nSlicesToExpand dilationKernelSize) a)
      shape)
  else .ok shape

lemma extend_slice_shape_length (shape : List ℕ) (e a : ℕ) :
    (extend_slice_shape shape e a).length = shape.length := by
  simp [extend_slice_shape]

lemma extend_slice_shape_getD (shape : List ℕ) (e a i : ℕ)
    (hi : i < shape.length) :
    (extend_slice_shape shape e a).getD i 0
      = shape.getD i 0 + (if i = a then 2 * e else 0) := by
  rw [List.getD_eq_getElem _ _ hi]
  rw [List.getD_eq_getElem _ _ (by rw [extend_slice_shape_length]; exact hi)]
  simp only [extend_slice_shape, List.getElem_mapIdx]
  by_cases h : i = a
  · rw [if_pos h, if_pos h]
  · rw [if_neg h, if_neg h, Nat.add_zero]

lemma fold_extend_length (axs : List ℕ) (shape : List ℕ) (e : ℕ) :
    ((axs.foldl (fun s a => extend_slice_shape s e a) shape)).length
      = shape.length := by
  induction axs generalizing shape with
  | nil => rfl
  | cons a as ih => rw [List.foldl_cons, ih, extend_slice_shape_length]

lemma fold_extend_getD (axs : List ℕ) (shape : List ℕ) (e i : ℕ)
    (hi : i < shape.length) :
    ((axs.foldl (fun s a => extend_slice_shape s e a) shape)).getD i 0
      = shape.getD i 0 + 2 * e * (axs.count i) := by
  induction axs generalizing shape with
  | nil => simp
  | cons a as ih =>
      rw [List.foldl_cons, ih _ (by rw [extend_slice_shape_length]; exact hi),
        extend_slice_shape_getD _ _ _ _ hi, List.count_cons]
      by_cases h : i = a
      · subst h
        rw [if_pos rfl]
        simp only [beq_self_eq_true, if_true]
        ring
      · have h2 : (a == i) = false := by
          simp only [beq_eq_false_iff_ne]
          omega
        rw [if_neg h]
        simp only [h2, Bool.false_eq_true, if_false]
        ring

/-- C5 counterexample: with dilation kernel size 1 the number of slices to
expand is 0, so a fieldmap accepted by `_load_fmap` with a spatial axis of
length 1 is returned with that axis still of length 1, below the two voxels
the claim requires. -/
theorem load_fmap_shape_counterexample :
    load_fmap_shape [1, 5, 5] 3 1 = .ok [1, 5, 5] ∧
    ([1, 5, 5].getD 0 0) < 2 := by
  constructor
  · rfl
  · decide

/-- C5 (amended): for every fieldmap accepted by `_load_fmap` — a shape with
the required number of dimensions (at least 3) and positive spatial axis
lengths — and every dilation kernel size of at least 2, every spatial axis of
the returned shape has at least 2 voxels: any axis of length 1 has been
expanded by replicating its single slice, and the remaining axes already had
at least 2. -/
theorem load_fmap_shape_min_dims (shape : List ℕ) (nDims k : ℕ)
    (hk : 2 ≤ k) (hdim : 3 ≤ nDims)
    (hpos : ∀ i, i < 3 → 1 ≤ shape.getD i 0) :
    ∀ out, load_fmap_shape shape nDims k = .ok out →
      ∀ i, i < 3 → 2 ≤ out.getD i 0 := by
  intro out hout i hi3
  rw [load_fmap_shape] at hout
  by_cases hlen : shape.length ≠ nDims
  · rw [if_pos hlen] at hout
    cases hout
  · rw [if_neg hlen] at hout
    have hlen3 : 3 ≤ shape.length := by omega
    by_cases hone : (shape.take 3).contains 1
    · rw [if_pos hone] at hout
      injection hout with hout
      subst hout
      rw [fold_extend_getD _ _ _ _ (by omega)]
      by_cases haxis : shape.getD i 0 = 1
      · have hcnt : (((List.range 3).filter fun a => shape.getD a 0 = 1).count i) = 1 := by
          refine List.count_eq_one_of_mem
            (List.Nodup.filter _ (List.nodup_range 3)) ?_
          rw [List.mem_filter, List.mem_range]
          exact ⟨hi3, by simpa using haxis⟩
        rw [hcnt, haxis]
        have he : 1 ≤ nSlicesToExpand k := by
          rw [nSlicesToExpand]
          omega
        omega
      · have h1 := hpos i hi3
        omega
    · rw [if_neg hone] at hout
      injection hout with hout
      subst hout
      have h1 := hpos i hi3
      by_cases h2 : shape.getD i 0 = 1
      · exfalso
        apply hone
        have : (1 : ℕ) ∈ shape.take 3 := by
          rw [← h2]
          rw [List.getD_eq_getElem _ _ (by omega)]
          have hlt : i < (shape.take 3).length := by
            rw [List.length_take]
            omega
          have : shape[i] = (shape.take 3).get ⟨i, hlt⟩ := by
            simp [List.getElem_take]
          rw [this]
          exact List.get_mem _ _ _
        simpa using this
      · omega

/-- C5 witness: the amended bound instantiated on a single-slice fieldmap
with the default kernel size 3: the slice axis is expanded to 3 voxels. -/
theorem load_fmap_shape_min_dims_witness :
    2 ≤ ([5, 5, 3] : List ℕ).getD 2 0 :=
  load_fmap_shape_min_dims [5, 5, 1] 3 3 (by decide) (by decide)
    (by intro i hi; interval_cases i <;> decide) [5, 5, 3] (by rfl) 2 (by decide)

/-- Coefficient triplet for the three first-order channels, either in the
physical (frequency, phase, slice after transform) or in the scanner axes. -/
structure Vec3 where
  x : ℚ
  y : ℚ
  z : ℚ
  deriving DecidableEq

/-- Direction-cosine orientation matrix of the anatomical image, given by
rows. -/
structure Mat3 where
  m11 : ℚ
  m12 : ℚ
  m13 : ℚ
  m21 : ℚ
  m22 : ℚ
  m23 : ℚ
  m31 : ℚ
  m32 : ℚ
  m33 : ℚ
  deriving DecidableEq

/-- Matrix-vector application: each output component is the dot product of a
matrix row with the input triplet. -/
def Mat3.mulVec (A : Mat3) (v : Vec3) : Vec3 :=
  ⟨A.m11 * v.x + A.m12 * v.y + A.m13 * v.z,
   A.m21 * v.x + A.m22 * v.y + A.m23 * v.z,
   A.m31 * v.x + A.m32 * v.y + A.m33 * v.z⟩

/-- Matrix transpose. -/
def Mat3.transpose (A : Mat3) : Mat3 :=
  ⟨A.m11, A.m21, A.m31, A.m12, A.m22, A.m32, A.m13, A.m23, A.m33⟩

/-- Matrix product. -/
def Mat3.mul (A B : Mat3) : Mat3 :=
  ⟨A.m11 * B.m11 + A.m12 * B.m21 + A.m13 * B.m31,
   A.m11 * B.m12 + A.m12 * B.m22 + A.m13 * B.m32,
   A.m11 * B.m13 + A.m12 * B.m23 + A.m13 * B.m33,
   A.m21 * B.m11 + A.m22 * B.m21 + A.m23 * B.m31,
   A.m21 * B.m12 + A.m22 * B.m22 + A.m23 * B.m32,
   A.m21 * B.m13 + A.m22 * B.m23 + A.m23 * B.m33,
   A.m31 * B.m11 + A.m32 * B.m21 + A.m33 * B.m31,
   A.m31 * B.m12 + A.m32 * B.m22 + A.m33 * B.m32,
   A.m31 * B.m13 + A.m32 * B.m23 + A.m33 * B.m33⟩

/-- Identity matrix. -/
def Mat3.one : Mat3 := ⟨1, 0, 0, 0, 1, 0, 0, 0, 1⟩

/-- Orthonormality of the orientation matrix: its transpose is its inverse.
A matrix with determinant 0 is never orthonormal. -/
def Mat3.isOrthonormal (A : Mat3) : Prop := A.transpose.mul A = Mat3.one

instance (A : Mat3) : Decidable A.isOrthonormal :=
  inferInstanceAs (Decidable (_ = _))

/-- Error raised for an orientation matrix that is not a pure rotation. -/
inductive OrientationError
  | unsupportedOrientation
  deriving DecidableEq

/-- Modelled from the spec: `phys_to_gradient_cs` is imported in `b0shim.py`
from `shimmingtoolbox.shim.shim_utils` and its body is not among the sources
at hand. Following the spec wording, the triplet of first-order coefficients
is rotated from the physical (RAS) axes into the logical gradient axes by the
direction-cosine rows of the orientation matrix, and a matrix that is not
orthonormal is rejected with `UnsupportedOrientationError`. -/
def physicalToGradientCS (r : Mat3) (v : Vec3) : Except OrientationError Vec3 :=
  if r.isOrthonormal then .ok (r.mulVec v)
  else .error .unsupportedOrientation

/-- Modelled from the spec: the inverse transform maps gradient-axis
coefficients back to the physical axes by the transposed (inverse) rotation,
with the same orthonormality guard. -/
def gradientToPhysicalCS (r : Mat3) (v : Vec3) : Except OrientationError Vec3 :=
  if r.isOrthonormal then .ok (r.transpose.mulVec v)
  else .error .unsupportedOrientation

lemma Mat3.mul_mulVec (A B : Mat3) (v : Vec3) :
    (A.mul B).mulVec v = A.mulVec (B.mulVec v) := by
  cases A
  cases B
  cases v
  simp only [Mat3.mul, Mat3.mulVec, Vec3.mk.injEq]
  refine ⟨by ring, by ring, by ring⟩

lemma Mat3.one_mulVec (v : Vec3) : Mat3.one.mulVec v = v := by
  cases v
  simp only [Mat3.one, Mat3.mulVec, Vec3.mk.injEq]
  refine ⟨by ring, by ring, by ring⟩

/-- C6: for an orthonormal orientation matrix the transform is a pure
rotation and composing it with its inverse returns the original triplet
exactly (hence within 1e-6); for a matrix that is not orthonormal — for
example one with determinant 0 — the transform fails with
`UnsupportedOrientationError` instead of returning a result. -/
theorem physicalToGradientCS_roundtrip (r : Mat3) (v : Vec3) :
    (r.isOrthonormal →
      ∃ w, physicalToGradientCS r v = .ok w ∧
        gradientToPhysicalCS r w = .ok v) ∧
    (¬ r.isOrthonormal →
      physicalToGradientCS r v = .error .unsupportedOrientation) := by
  constructor
  · intro h
    refine ⟨r.mulVec v, ?_, ?_⟩
    · rw [physicalToGradientCS, if_pos h]
    · rw [gradientToPhysicalCS, if_pos h, ← Mat3.mul_mulVec]
      rw [Mat3.isOrthonormal] at h
      rw [h, Mat3.one_mulVec]
  · intro h
    rw [physicalToGradientCS, if_neg h]

/-- C6 witness: the round trip through the identity rotation and the
rejection of the all-zero (determinant 0) orientation matrix. -/
theorem physicalToGradientCS_roundtrip_witness :
    (∃ w, physicalToGradientCS ⟨1, 0, 0, 0, 1, 0, 0, 0, 1⟩ ⟨3, -4, 5⟩ = .ok w ∧
      gradientToPhysicalCS ⟨1, 0, 0, 0, 1, 0, 0, 0, 1⟩ w = .ok ⟨3, -4, 5⟩) ∧
    physicalToGradientCS ⟨0, 0, 0, 0, 0, 0, 0, 0, 0⟩ ⟨3, -4, 5⟩
      = .error .unsupportedOrientation :=
  ⟨(physicalToGradientCS_roundtrip ⟨1, 0, 0, 0, 1, 0, 0, 0, 1⟩ ⟨3, -4, 5⟩).1
      (by rw [Mat3.isOrthonormal]
          simp only [Mat3.transpose, Mat3.mul, Mat3.one, Mat3.mk.injEq]
          norm_num),
   (physicalToGradientCS_roundtrip ⟨0, 0, 0, 0, 0, 0, 0, 0, 0⟩ ⟨3, -4, 5⟩).2
      (by rw [Mat3.isOrthonormal]
          simp only [Mat3.transpose, Mat3.mul, Mat3.one, Mat3.mk.injEq]
          norm_num)⟩

/-- Observable side effects of a CLI run, in the order they are performed. -/
inductive Effect
  | createOutputDir
  | loadFile (name : String)
  | runOptimizer
  | writeOutput (name : String)
  deriving DecidableEq

/-- The `--output-value-format` choice. -/
inductive OutputValueFormat
  | delta
  | absolute
  deriving DecidableEq

/-- The `--output-file-format` choice of `realtime_cli`. -/
inductive RtOutputFormat
  | slicewiseCh
  | chronologicalCh
  | eva
  deriving DecidableEq

/-- Inputs and external outcomes a CLI invocation depends on: the data shape
of the fieldmap file, the kernel size, the anat header field `dim_info[2]`
(slice-encode axis), the anat slice count, which optional masks were passed,
whether the fieldmap json sidecar exists, the outcome of the external parts
of `_load_coils`, and the slice grouping and output format options. -/
structure CliEnv where
  fmapShape : List ℕ
  dilationKernelSize : ℕ
  anatDimInfo2 : ℕ
  anatNSlices : ℕ
  maskProvided : Bool
  maskStaticProvided : Bool
  maskRiroProvided : Bool
  fmapJsonExists : Bool
  coilsLoad : Except ShimError Unit
  sliceFactor : ℕ
  sliceMethod : SliceMethod
  outputValueFormat : OutputValueFormat
  rtOutputFormat : RtOutputFormat

/-- Control-flow embedding of `static_cli` (`b0shim.py`), with the effect
trace made explicit: create the output directory, load and possibly expand
the fieldmap, load the anat and require the slice-encode direction to be its
third axis, load the optional mask, require the fieldmap json sidecar, load
the coils, compute the slice groups, and only then run the optimizer and
write the coefficient files. The optimizer is a parameter: the code before it
neither calls nor depends on it. -/
def runStaticPipeline (env : CliEnv)
    (optimizer : List (List ℕ) → List (List ℚ)) :
    Except ShimError Unit × List Effect :=
  let tr := [Effect.createOutputDir, Effect.loadFile "fmap"]
  match load_fmap_shape env.fmapShape 3 env.dilationKernelSize with
  | .error e => (.error e, tr)
  | .ok _ =>
    let tr := tr ++ [Effect.loadFile "anat"]
    if env.anatDimInfo2 ≠ 2 then
      (.error (.runtimeError
        "Slice encode direction must be the 3rd dimension of the NIfTI file."), tr)
    else
      let tr := tr ++ (if env.maskProvided then [Effect.loadFile "mask"] else [])
      if ¬ env.fmapJsonExists then
        (.error (.osError "Missing fieldmap json file"), tr)
      else
        let tr := tr ++ [Effect.loadFile "fmap json"]
        match env.coilsLoad with
        | .error e => (.error e, tr)
        | .ok _ =>
          match defineSlices env.anatNSlices env.sliceFactor env.sliceMethod with
          | .error e => (.error e, tr)
          | .ok listSlices =>
            let _coefs := optimizer listSlices
            (.ok (), tr ++ [Effect.runOptimizer, Effect.writeOutput "coefs"])

/-- Control-flow embedding of `realtime_cli` (`b0shim.py`): the very first
statement rejects the absolute output value format combined with the eva
output file format; afterwards the steps mirror `static_cli` with a 4D
fieldmap, two optional masks and the respiratory trace loaded before the
optimizer runs. -/
def runRealtimePipeline (env : CliEnv)
    (optimizer : List (List ℕ) → List (List ℚ)) :
    Except ShimError Unit × List Effect :=
  if env.outputValueFormat = .absolute ∧ env.rtOutputFormat = .eva then
    (.error (.valueError
      "Unsupported output value format: absolute for output file format: eva"), [])
  else
    let tr := [Effect.createOutputDir, Effect.loadFile "fmap"]
    match load_fmap_shape env.fmapShape 4 env.dilationKernelSize with
    | .error e => (.error e, tr)
    | .ok _ =>
      let tr := tr ++ [Effect.loadFile "anat"]
      if env.anatDimInfo2 ≠ 2 then
        (.error (.runtimeError
          "Slice encode direction must be the 3rd dimension of the NIfTI file."), tr)
      else
        let tr := tr ++
          (if env.maskStaticProvided then [Effect.loadFile "mask static"] else [])
        let tr := tr ++
          (if env.maskRiroProvided then [Effect.loadFile "mask riro"] else [])
        if ¬ env.fmapJsonExists then
          (.error (.osError "Missing fieldmap json file"), tr)
        else
          let tr := tr ++ [Effect.loadFile "fmap json"]
          match env.coilsLoad with
          | .error e => (.error e, tr)
          | .ok _ =>
            match defineSlices env.anatNSlices env.sliceFactor env.sliceMethod with
            | .error e => (.error e, tr)
            | .ok listSlices =>
              let tr := tr ++ [Effect.loadFile "resp"]
              let _coefs := optimizer listSlices
              (.ok (), tr ++ [Effect.runOptimizer, Effect.writeOutput "coefs"])

/-- C7: when the slice-encode direction of the anatomical input is not the
third array axis, both the static and the realtime pipelines end in an
error, the optimizer effect never appears in the trace, and the run does not
depend on the optimizer at all — no optimization is performed and no
reorientation is attempted. -/
theorem slice_dim_check_blocks (env : CliEnv)
    (opt opt2 : List (List ℕ) → List (List ℚ))
    (h : env.anatDimInfo2 ≠ 2) :
    (∃ e, (runStaticPipeline env opt).1 = .error e) ∧
    Effect.runOptimizer ∉ (runStaticPipeline env opt).2 ∧
    runStaticPipeline env opt = runStaticPipeline env opt2 ∧
    (∃ e, (runRealtimePipeline env opt).1 = .error e) ∧
    Effect.runOptimizer ∉ (runRealtimePipeline env opt).2 ∧
    runRealtimePipeline env opt = runRealtimePipeline env opt2 := by
  have hstat : ∀ o, runStaticPipeline env o
      = match load_fmap_shape env.fmapShape 3 env.dilationKernelSize with
        | .error e => (.error e, [Effect.createOutputDir, Effect.loadFile "fmap"])
        | .ok _ => (.error (.runtimeError
            "Slice encode direction must be the 3rd dimension of the NIfTI file."),
            [Effect.createOutputDir, Effect.loadFile "fmap", Effect.loadFile "anat"]) := by
    intro o
    rw [runStaticPipeline]
    cases load_fmap_shape env.fmapShape 3 env.dilationKernelSize with
    | error e => rfl
    | ok s => simp [h]
  have hrt : ∀ o, runRealtimePipeline env o
      = if env.outputValueFormat = .absolute ∧ env.rtOutputFormat = .eva then
          (.error (.valueError
            "Unsupported output value format: absolute for output file format: eva"), [])
        else
          match load_fmap_shape env.fmapShape 4 env.dilationKernelSize with
          | .error e => (.error e, [Effect.createOutputDir, Effect.loadFile "fmap"])
          | .ok _ => (.error (.runtimeError
              "Slice encode direction must be the 3rd dimension of the NIfTI file."),
              [Effect.createOutputDir, Effect.loadFile "fmap", Effect.loadFile "anat"]) := by
    intro o
    rw [runRealtimePipeline]
    by_cases heva : env.outputValueFormat = .absolute ∧ env.rtOutputFormat = .eva
    · rw [if_pos heva, if_pos heva]
    · rw [if_neg heva, if_neg heva]
      cases load_fmap_shape env.fmapShape 4 env.dilationKernelSize with
      | error e => rfl
      | ok s => simp [h]
  refine ⟨?_, ?_, by rw [hstat opt, hstat opt2], ?_, ?_, by rw [hrt opt, hrt opt2]⟩
  · rw [hstat opt]
    cases load_fmap_shape env.fmapShape 3 env.dilationKernelSize with
    | error e => exact ⟨e, rfl⟩
    | ok s => exact ⟨_, rfl⟩
  · rw [hstat opt]
    cases load_fmap_shape env.fmapShape 3 env.dilationKernelSize with
    | error e => simp
    | ok s => simp
  · rw [hrt opt]
    by_cases heva : env.outputValueFormat = .absolute ∧ env.rtOutputFormat = .eva
    · rw [if_pos heva]
      exact ⟨_, rfl⟩
    · rw [if_neg heva]
      cases load_fmap_shape env.fmapShape 4 env.dilationKernelSize with
      | error e => exact ⟨e, rfl⟩
      | ok s => exact ⟨_, rfl⟩
  · rw [hrt opt]
    by_cases heva : env.outputValueFormat = .absolute ∧ env.rtOutputFormat = .eva
    · rw [if_pos heva]
      simp
    · rw [if_neg heva]
      cases load_fmap_shape env.fmapShape 4 env.dilationKernelSize with
      | error e => simp
      | ok s => simp

/-- C7 witness: a run whose anat has the slice-encode direction on the first
axis fails in both pipelines with no optimizer effect in the trace. -/
theorem slice_dim_check_blocks_witness :
    (∃ e, (runStaticPipeline
        ⟨[4, 4, 4], 3, 0, 6, false, false, false, true, .ok (), 1,
          .sequential, .delta, .slicewiseCh⟩ fun _ => []).1 = .error e) ∧
    Effect.runOptimizer ∉ (runStaticPipeline
        ⟨[4, 4, 4], 3, 0, 6, false, false, false, true, .ok (), 1,
          .sequential, .delta, .slicewiseCh⟩ fun _ => []).2 ∧
    runStaticPipeline
        ⟨[4, 4, 4], 3, 0, 6, false, false, false, true, .ok (), 1,
          .sequential, .delta, .slicewiseCh⟩ (fun _ => [])
      = runStaticPipeline
        ⟨[4, 4, 4], 3, 0, 6, false, false, false, true, .ok (), 1,
          .sequential, .delta, .slicewiseCh⟩ (fun _ => [[1]]) ∧
    (∃ e, (runRealtimePipeline
        ⟨[4, 4, 4], 3, 0, 6, false, false, false, true, .ok (), 1,
          .sequential, .delta, .slicewiseCh⟩ fun _ => []).1 = .error e) ∧
    Effect.runOptimizer ∉ (runRealtimePipeline
        ⟨[4, 4, 4], 3, 0, 6, false, false, false, true, .ok (), 1,
          .sequential, .delta, .slicewiseCh⟩ fun _ => []).2 ∧
    runRealtimePipeline
        ⟨[4, 4, 4], 3, 0, 6, false, false, false, true, .ok (), 1,
          .sequential, .delta, .slicewiseCh⟩ (fun _ => [])
      = runRealtimePipeline
        ⟨[4, 4, 4], 3, 0, 6, false, false, false, true, .ok (), 1,
          .sequential, .delta, .slicewiseCh⟩ (fun _ => [[1]]) :=
  slice_dim_check_blocks _ (fun _ => []) (fun _ => [[1]]) (by decide)

/-- C9: an invocation of the realtime pipeline combining the absolute output
value format with the eva output file format fails immediately with a
`ValueError`, with an empty effect trace: no input file is loaded, the
output directory is not created, no coefficient is computed and nothing is
written. -/
theorem eva_absolute_rejected (env : CliEnv)
    (opt : List (List ℕ) → List (List ℚ))
    (h1 : env.outputValueFormat = .absolute)
    (h2 : env.rtOutputFormat = .eva) :
    runRealtimePipeline env opt
      = (.error (.valueError
          "Unsupported output value format: absolute for output file format: eva"),
         []) := by
  rw [runRealtimePipeline, if_pos ⟨h1, h2⟩]

/-- C9 witness: a concrete realtime invocation with absolute value format and
eva file format is rejected with the empty trace. -/
theorem eva_absolute_rejected_witness :
    runRealtimePipeline
        ⟨[4, 4, 4, 2], 3, 2, 6, false, false, false, true, .ok (), 1,
          .sequential, .absolute, .eva⟩ (fun _ => [])
      = (.error (.valueError
          "Unsupported output value format: absolute for output file format: eva"),
         []) :=
  eva_absolute_rejected _ (fun _ => []) rfl rfl

/-- The separator guard `i_channel != n_channels` from
`_save_to_text_file_static` (`b0shim.py`). -/
def channelSepGuard (iChannel nChannels : ℕ) : Bool := iChannel != nChannels

/-- Sequence of strings written for one row of a `-coil` format output file:
for each channel in `range(n_channels)` the formatted coefficient is written,
followed by the `", "` separator whenever the guard holds; a newline ends the
row. -/
def writeCoilRowTokens (coefStr : ℕ → String) (nChannels : ℕ) : List String :=
  ((List.range nChannels).map fun i =>
      coefStr i :: (if channelSepGuard i nChannels then [", "] else [])).flatten
    ++ ["\n"]

/-- C10: the separator guard holds for every channel index below
`n_channels`, so the `", "` separator is written after every coefficient of a
row including the last one, and every nonempty row ends with a trailing
`", "` directly before the newline. -/
theorem coil_row_trailing_sep (coefStr : ℕ → String) (n : ℕ) :
    (∀ i, i < n → channelSepGuard i n = true) ∧
    writeCoilRowTokens coefStr n
      = ((List.range n).map fun i => [coefStr i, ", "]).flatten ++ ["\n"] ∧
    (1 ≤ n → ∃ pre, writeCoilRowTokens coefStr n = pre ++ [", ", "\n"]) := by
  have hguard : ∀ i, i < n → channelSepGuard i n = true := by
    intro i hi
    rw [channelSepGuard, bne_iff_ne]
    omega
  have heq : writeCoilRowTokens coefStr n
      = ((List.range n).map fun i => [coefStr i, ", "]).flatten ++ ["\n"] := by
    rw [writeCoilRowTokens]
    congr 2
    apply List.map_congr_left
    intro i hi
    rw [List.mem_range] at hi
    rw [hguard i hi, if_pos rfl]
  refine ⟨hguard, heq, ?_⟩
  intro hn
  obtain ⟨m, rfl⟩ : ∃ m, n = m + 1 := ⟨n - 1, by omega⟩
  rw [heq, List.range_succ, List.map_append, List.flatten_append]
  refine ⟨((List.range m).map fun i => [coefStr i, ", "]).flatten ++ [coefStr m], ?_⟩
  simp

/-- C10 witness: on a two-channel row the guard holds at the last channel and
the written tokens end with the separator followed by the newline. -/
theorem coil_row_trailing_sep_witness :
    channelSepGuard 1 2 = true ∧
    ∃ pre, writeCoilRowTokens (fun _ => "0.000000") 2 = pre ++ [", ", "\n"] :=
  ⟨(coil_row_trailing_sep (fun _ => "0.000000") 2).1 1 (by decide),
   (coil_row_trailing_sep (fun _ => "0.000000") 2).2.2 (by decide)⟩

end B0Shim
